import Mathlib

/-!
Shallow embedding of `src/DB_version2.py` (a single-run API → PostgreSQL ETL
script).  Python strings are modelled as `List Char`; the regex-based string
rewrites, the column sanitizer, the name-based type inference, the per-cell
value coercion, the resilient JSON decoder and the per-row insert loop are
translated directly from the source.  Machine-level caveats of the model are
noted at each definition.
-/

/-- ASCII model of the Python regex word character class (backslash-w),
i.e. `[A-Za-z0-9_]`.  (Python's class is Unicode-aware; the pipeline's
column names are ASCII, so the model covers the ASCII fragment.) -/
def isWordChar (c : Char) : Bool := c.isAlphanum || c = '_'

/-- Line 34, `re.sub(r'[^\w]', '_', col)`: every non-word character is
replaced by an underscore. -/
def subNonWord (s : List Char) : List Char :=
  s.map (fun c => if isWordChar c then c else '_')

/-- Worker for `re.sub(r'_+', '_', s)`: the flag records whether the previous
kept character was part of an underscore run (so further underscores of the
same run are dropped). -/
def collapseGo : Bool → List Char → List Char
  | _, [] => []
  | prevUnd, c :: rest =>
    if c = '_' then
      if prevUnd then collapseGo true rest else '_' :: collapseGo true rest
    else c :: collapseGo false rest

/-- Line 35, `re.sub(r'_+', '_', col_clean)`: each maximal run of underscores
becomes a single underscore. -/
def collapseUnderscores (s : List Char) : List Char := collapseGo false s

/-- Line 36, `col_clean.strip('_')`: remove all leading and trailing
underscores. -/
def stripUnderscores (s : List Char) : List Char :=
  (((s.dropWhile (fun c => c = '_')).reverse.dropWhile (fun c => c = '_'))).reverse

/-- ASCII model of `str.lower` (the script only compares ASCII names). -/
def pyLower (s : List Char) : List Char := s.map Char.toLower

/-- ASCII model of `str.upper`. -/
def pyUpper (s : List Char) : List Char := s.map Char.toUpper

/-- Line 31: the script's reserved-keyword set. -/
def postgres_reserved_keywords : List (List Char) :=
  ["group", "order", "select", "user", "where", "table", "from", "join", "by"].map
    String.toList

/-- Lines 33-39, `clean_column`: replace non-word characters, collapse
underscore runs, strip edge underscores, and append an underscore when the
lowercased result is a reserved keyword. -/
def clean_column (col : List Char) : List Char :=
  let c1 := subNonWord col
  let c2 := collapseUnderscores c1
  let c3 := stripUnderscores c2
  if pyLower c3 ∈ postgres_reserved_keywords then c3 ++ ['_'] else c3

/-- Python's `needle in haystack` on strings: contiguous substring test. -/
def containsSub (needle : List Char) : List Char → Bool
  | [] => needle.isEmpty
  | c :: rest => needle.isPrefixOf (c :: rest) || containsSub needle rest

/-- Lines 67-78, `infer_pg_type`: name-based PostgreSQL type guess over the
lowercased column name, first match wins. -/
def infer_pg_type (column_name : List Char) : List Char :=
  let col_lower := pyLower column_name
  if containsSub "date".toList col_lower && !(col_lower = "billmonth".toList) then
    "DATE".toList
  else if containsSub "month".toList col_lower then
    "TEXT".toList
  else if ["qty", "points"].any (fun x => containsSub x.toList col_lower) then
    "INTEGER".toList
  else if ["amount", "price", "gst", "disc", "charges", "percent", "volume"].any
      (fun x => containsSub x.toList col_lower) then
    "NUMERIC(10,2)".toList
  else
    "TEXT".toList

/-- Decimal digit characters of `n` (model of Python `str` on a nonnegative
int), driven by explicit fuel so that it reduces by kernel evaluation;
`natChars` below supplies sufficient fuel. -/
def natCharsAux : Nat → Nat → List Char
  | 0, _ => []
  | fuel+1, n =>
    if n < 10 then [Nat.digitChar n]
    else natCharsAux fuel (n / 10) ++ [Nat.digitChar (n % 10)]

/-- Decimal representation of a natural number, as in Python string
formatting of `suffix`. -/
def natChars (n : Nat) : List Char := natCharsAux (n + 1) n

/-- Value of a decimal digit string (left inverse of `natChars`, used to
prove injectivity of the numeric suffixes). -/
def decDigitsVal (s : List Char) : Nat := s.foldl (fun a c => a * 10 + (c.toNat - 48)) 0

/-- Line 47, the candidate name built by the f-string: the cleaned name,
an underscore, and the decimal suffix. -/
def suffixName (c : List Char) (k : Nat) : List Char := c ++ '_' :: natChars k

/-- Lines 46-48, the `while f"{clean_col}_{suffix}" in seen` search, with
fuel (the source loop always terminates because `seen` is finite; the fuel
supplied by `findSuffix` is proven sufficient below). -/
def findSuffixGo (seen : List (List Char)) (c : List Char) : Nat → Nat → Nat
  | 0, k => k
  | fuel+1, k => if suffixName c k ∈ seen then findSuffixGo seen c fuel (k + 1) else k

/-- The first numeric suffix `k ≥ 1` with `suffixName c k` not in `seen`. -/
def findSuffix (seen : List (List Char)) (c : List Char) : Nat :=
  findSuffixGo seen c (seen.length + 1) 1

/-- Lines 44-49, the body of the loop for one column: clean the name and,
on a clash with an already-produced name, append the first free numeric
suffix. -/
def chooseName (seen : List (List Char)) (col : List Char) : List Char :=
  let cc := clean_column col
  if cc ∈ seen then suffixName cc (findSuffix seen cc) else cc

/-- Lines 41-51, the deduplication loop: `seen` holds the names already
produced; a clash is resolved by the first free numeric suffix. -/
def dedupGo (seen : List (List Char)) : List (List Char) → List (List Char)
  | [] => []
  | col :: rest =>
    let name := chooseName seen col
    name :: dedupGo (name :: seen) rest

/-- The full column sanitizer: `clean_column` per name, then de-duplication
(`cleaned_columns` in the script). -/
def cleaned_columns (cols : List (List Char)) : List (List Char) := dedupGo [] cols

/-- JSON values as decoded by `json.loads` (numbers modelled as rationals). -/
inductive JVal where
  | jnull
  | jbool (b : Bool)
  | jnum (q : ℚ)
  | jstr (s : List Char)
  | jarr (elems : List JVal)
  | jobj (fields : List (List Char × JVal))

/-- JSON insignificant whitespace. -/
def jsonWs (c : Char) : Bool := c = ' ' || c = '\t' || c = '\n' || c = '\r'

/-- Skip insignificant whitespace. -/
def skipWs (s : List Char) : List Char := s.dropWhile jsonWs

/-- The two-character JSON escapes (strict `json` module behaviour). -/
def escChar (c : Char) : Option Char :=
  if c = '"' then some '"'
  else if c = '\\' then some '\\'
  else if c = '/' then some '/'
  else if c = 'b' then some '\x08'
  else if c = 'f' then some '\x0c'
  else if c = 'n' then some '\n'
  else if c = 'r' then some '\r'
  else if c = 't' then some '\t'
  else none

/-- Hexadecimal digit value. -/
def hexVal (c : Char) : Option Nat :=
  if c.isDigit then some (c.toNat - 48)
  else if 'a' ≤ c && c ≤ 'f' then some (c.toNat - 87)
  else if 'A' ≤ c && c ≤ 'F' then some (c.toNat - 55)
  else none

/-- Four hex digits of a `\uXXXX` escape. -/
def parseHex4 : List Char → Option (Nat × List Char)
  | a :: b :: c :: d :: rest =>
    match hexVal a, hexVal b, hexVal c, hexVal d with
    | some x, some y, some z, some w => some (((x * 16 + y) * 16 + z) * 16 + w, rest)
    | _, _, _, _ => none
  | _ => none

/-- Leading decimal digits of a character list, with the remainder. -/
def readDigits : List Char → List Nat × List Char
  | [] => ([], [])
  | c :: rest =>
    if c.isDigit then
      let (ds, r) := readDigits rest
      ((c.toNat - 48) :: ds, r)
    else ([], c :: rest)

/-- Value of a digit list, most significant first. -/
def digitsToNat (ds : List Nat) : Nat := ds.foldl (fun a d => a * 10 + d) 0

/-- Body of a JSON string literal after the opening quote: ordinary
characters, the two-character escapes, and `\uXXXX` (an invalid escape or a
raw control character fails, as in the strict `json` parser; surrogate-pair
combination is not modelled). -/
def parseStringBody : Nat → List Char → Option (List Char × List Char)
  | 0, _ => none
  | _, [] => none
  | fuel+1, c :: rest =>
    if c = '"' then some ([], rest)
    else if c = '\\' then
      match rest with
      | [] => none
      | e :: rest2 =>
        if e = 'u' then
          match parseHex4 rest2 with
          | none => none
          | some (n, rest3) =>
            match parseStringBody fuel rest3 with
            | none => none
            | some (cs, rem) => some (Char.ofNat n :: cs, rem)
        else
          match escChar e with
          | none => none
          | some d =>
            match parseStringBody fuel rest2 with
            | none => none
            | some (cs, rem) => some (d :: cs, rem)
    else if c.toNat < 32 then none
    else
      match parseStringBody fuel rest with
      | none => none
      | some (cs, rem) => some (c :: cs, rem)

/-- A JSON number per the strict grammar: optional minus, `0` or a nonzero
leading digit, optional fraction, optional exponent. -/
def parseJNumber (s : List Char) : Option (ℚ × List Char) :=
  let signRes : Bool × List Char :=
    match s with
    | '-' :: r => (true, r)
    | _ => (false, s)
  let ipOpt : Option (Nat × List Char) :=
    match signRes.2 with
    | '0' :: r => some (0, r)
    | c :: r =>
      if c.isDigit then
        let (ds, r2) := readDigits r
        some (digitsToNat ((c.toNat - 48) :: ds), r2)
      else none
    | [] => none
  match ipOpt with
  | none => none
  | some (ip, s2) =>
    let fracOpt : Option (ℚ × List Char) :=
      match s2 with
      | '.' :: r =>
        match readDigits r with
        | ([], _) => none
        | (ds, r2) => some ((digitsToNat ds : ℚ) / (10 : ℚ) ^ ds.length, r2)
      | _ => some (0, s2)
    match fracOpt with
    | none => none
    | some (fr, s3) =>
      let expOpt : Option (Int × List Char) :=
        match s3 with
        | c :: r =>
          if c = 'e' || c = 'E' then
            let esign : Int × List Char :=
              match r with
              | '+' :: r2 => (1, r2)
              | '-' :: r2 => (-1, r2)
              | _ => (1, r)
            match readDigits esign.2 with
            | ([], _) => none
            | (ds, r2) => some (esign.1 * (digitsToNat ds : Int), r2)
          else some (0, c :: r)
        | [] => some (0, [])
      match expOpt with
      | none => none
      | some (e, s4) =>
        let mag : ℚ := ((ip : ℚ) + fr) * (10 : ℚ) ^ e
        some (if signRes.1 then -mag else mag, s4)

mutual

/-- Recursive-descent model of the strict `json.loads` value grammar.  The
fuel bounds the recursion depth; `parseJson` supplies fuel exceeding the
input length, which bounds every chain of nested calls. -/
def parseJValue : Nat → List Char → Option (JVal × List Char)
  | 0, _ => none
  | fuel+1, s =>
    let t := skipWs s
    match t with
    | [] => none
    | c :: rest =>
      if c = '"' then
        match parseStringBody (rest.length + 1) rest with
        | some (cs, rem) => some (JVal.jstr cs, rem)
        | none => none
      else if c = '\x7b' then
        let u := skipWs rest
        match u with
        | '\x7d' :: rem => some (JVal.jobj [], rem)
        | _ =>
          match parseJMembers fuel u with
          | some (kvs, rem) => some (JVal.jobj kvs, rem)
          | none => none
      else if c = '[' then
        let u := skipWs rest
        match u with
        | ']' :: rem => some (JVal.jarr [], rem)
        | _ =>
          match parseJElements fuel u with
          | some (vs, rem) => some (JVal.jarr vs, rem)
          | none => none
      else if c = 't' then
        match t with
        | 't' :: 'r' :: 'u' :: 'e' :: rem => some (JVal.jbool true, rem)
        | _ => none
      else if c = 'f' then
        match t with
        | 'f' :: 'a' :: 'l' :: 's' :: 'e' :: rem => some (JVal.jbool false, rem)
        | _ => none
      else if c = 'n' then
        match t with
        | 'n' :: 'u' :: 'l' :: 'l' :: rem => some (JVal.jnull, rem)
        | _ => none
      else
        match parseJNumber t with
        | some (q, rem) => some (JVal.jnum q, rem)
        | none => none

/-- One-or-more comma-separated array elements, ending at `]`. -/
def parseJElements : Nat → List Char → Option (List JVal × List Char)
  | 0, _ => none
  | fuel+1, s =>
    match parseJValue fuel s with
    | none => none
    | some (v, rest) =>
      match skipWs rest with
      | ',' :: rest2 =>
        match parseJElements fuel rest2 with
        | some (vs, rem) => some (v :: vs, rem)
        | none => none
      | ']' :: rem => some ([v], rem)
      | _ => none

/-- One-or-more comma-separated object members, ending at the closing
brace; the input is already whitespace-skipped up to the key. -/
def parseJMembers : Nat → List Char → Option (List (List Char × JVal) × List Char)
  | 0, _ => none
  | fuel+1, s =>
    match s with
    | '"' :: rest =>
      match parseStringBody (rest.length + 1) rest with
      | none => none
      | some (k, rest2) =>
        match skipWs rest2 with
        | ':' :: rest3 =>
          match parseJValue fuel rest3 with
          | none => none
          | some (v, rest4) =>
            match skipWs rest4 with
            | ',' :: rest5 =>
              match parseJMembers fuel (skipWs rest5) with
              | some (kvs, rem) => some ((k, v) :: kvs, rem)
              | none => none
            | '\x7d' :: rem => some ([(k, v)], rem)
            | _ => none
        | _ => none
    | _ => none

end

/-- Strict parse of a whole document: one value and then only whitespace
(`json.loads` raises on trailing data). -/
def parseJson (s : List Char) : Option JVal :=
  match parseJValue (s.length + 2) s with
  | some (v, rest) => if skipWs rest = [] then some v else none
  | none => none

/-- The characters that may legally follow a backslash in a JSON text
(line 18, the lookahead class of the repair regex). -/
def jsonEscapeFollowers : List Char := ['"', '\\', '/', 'b', 'f', 'n', 'r', 't', 'u']

/-- Line 18, `re.sub(r'\\(?!["\\/bfnrtu])', r'\\\\', bad_json)`: scanning
left to right, a backslash whose next character (if any) is not one of the
escape followers is replaced by two backslashes; after a failed match the
scan advances one character, so the character after a kept backslash is
itself examined next. -/
def repairBackslashes : List Char → List Char
  | [] => []
  | c :: rest =>
    if c = '\\' && !(rest.head?.any (fun d => d ∈ jsonEscapeFollowers)) then
      '\\' :: '\\' :: repairBackslashes rest
    else c :: repairBackslashes rest

/-- Lines 13-25, the resilient decoder: strict parse first; on failure,
repair the backslashes and parse once more.  The boolean records whether
the repair path ran; a `none` result with the flag set models the final
re-raise (fatal abort). -/
def decodeResponse (text : List Char) : Option JVal × Bool :=
  match parseJson text with
  | some v => (some v, false)
  | none => (parseJson (repairBackslashes text), true)

/-- Python `datetime.date` (as produced by `pd.to_datetime(...).date()`). -/
structure PyDate where
  year : Nat
  month : Nat
  day : Nat
deriving DecidableEq, Repr

/-- A DataFrame cell.  `vnone` covers both Python `None` and pandas
missing markers (`NaN`/`NaT`); `vobj` covers non-scalar cells (a list-valued
field is kept as a single object by `pd.json_normalize`). -/
inductive PyVal where
  | vnone
  | vstr (s : List Char)
  | vint (n : Int)
  | vfloat (q : ℚ)
  | vbool (b : Bool)
  | vdate (d : PyDate)
  | vobj (j : JVal)

/-- Python `str.strip()` whitespace (ASCII fragment). -/
def pyIsSpace (c : Char) : Bool :=
  c = ' ' || c = '\t' || c = '\n' || c = '\r' || c = '\x0b' || c = '\x0c'

/-- Python `str.strip()`: remove leading and trailing whitespace. -/
def pyStrip (s : List Char) : List Char :=
  ((s.dropWhile pyIsSpace).reverse.dropWhile pyIsSpace).reverse

/-- Line 102: the missing-value sentinels compared after strip and upper. -/
def missingSentinels : List (List Char) := ["N/A", "", "NA"].map String.toList

/-- Line 102, the guard `pd.isna(value) or (isinstance(value, str) and
value.strip().upper() in ["N/A", "", "NA"])`. -/
def isMissingVal (v : PyVal) : Bool :=
  match v with
  | .vnone => true
  | .vstr s => pyUpper (pyStrip s) ∈ missingSentinels
  | _ => false

/-- Python `float(str)` on the standard decimal forms: optional surrounding
whitespace, optional sign, digits with optional fraction and exponent
(`inf`/`nan` words and digit-group underscores are outside the model). -/
def parsePyFloat (s : List Char) : Option ℚ :=
  let t := pyStrip s
  let signRes : Bool × List Char :=
    match t with
    | '+' :: r => (false, r)
    | '-' :: r => (true, r)
    | _ => (false, t)
  let (ip, t2) := readDigits signRes.2
  let fracRes : List Nat × List Char :=
    match t2 with
    | '.' :: r => readDigits r
    | _ => ([], t2)
  let fp := fracRes.1
  let t3 := fracRes.2
  if ip.isEmpty && fp.isEmpty then none
  else
    let expOpt : Option (Int × List Char) :=
      match t3 with
      | c :: r =>
        if c = 'e' || c = 'E' then
          let esign : Int × List Char :=
            match r with
            | '+' :: r2 => (1, r2)
            | '-' :: r2 => (-1, r2)
            | _ => (1, r)
          match readDigits esign.2 with
          | ([], _) => none
          | (ds, r2) => some (esign.1 * (digitsToNat ds : Int), r2)
        else none
      | [] => some (0, [])
    match expOpt with
    | none => none
    | some (e, rem) =>
      if rem.isEmpty then
        let mag : ℚ :=
          ((digitsToNat ip : ℚ) + (digitsToNat fp : ℚ) / (10 : ℚ) ^ fp.length) * (10 : ℚ) ^ e
        some (if signRes.1 then -mag else mag)
      else none

/-- Python `float(value)` over cell values: strings are parsed, numbers and
booleans are converted exactly, anything else raises (modelled as `none`). -/
def pyFloat (v : PyVal) : Option ℚ :=
  match v with
  | .vstr s => parsePyFloat s
  | .vint n => some (n : ℚ)
  | .vfloat q => some q
  | .vbool b => some (if b then 1 else 0)
  | _ => none

/-- Python `int(x)` on a float: truncation toward zero. -/
def truncRat (q : ℚ) : Int := if 0 ≤ q then q.floor else q.ceil

/-- Gregorian leap year. -/
def isLeapYear (y : Nat) : Bool := (y % 4 = 0 && y % 100 ≠ 0) || y % 400 = 0

/-- Days in a month of the Gregorian calendar. -/
def daysInMonth (y m : Nat) : Nat :=
  if m = 2 then (if isLeapYear y then 29 else 28)
  else if m = 4 || m = 6 || m = 9 || m = 11 then 30
  else 31

/-- ISO `YYYY-MM-DD` date parsing with calendar validity.  This models
`pd.to_datetime` on the zero-padded ISO date strings the pipeline handles;
the many other formats pandas accepts are outside the model. -/
def parseIsoDate (s : List Char) : Option PyDate :=
  match s with
  | [y1, y2, y3, y4, h1, m1, m2, h2, d1, d2] =>
    if y1.isDigit && y2.isDigit && y3.isDigit && y4.isDigit && h1 = '-' &&
        m1.isDigit && m2.isDigit && h2 = '-' && d1.isDigit && d2.isDigit then
      let y := digitsToNat [y1.toNat - 48, y2.toNat - 48, y3.toNat - 48, y4.toNat - 48]
      let m := digitsToNat [m1.toNat - 48, m2.toNat - 48]
      let d := digitsToNat [d1.toNat - 48, d2.toNat - 48]
      if 1 ≤ m && m ≤ 12 && 1 ≤ d && d ≤ daysInMonth y m then some ⟨y, m, d⟩ else none
    else none
  | _ => none

/-- `pd.to_datetime(value).date()` over cell values: strings are parsed
(ISO model above), a date stays itself, anything else fails (numeric epoch
inputs are outside the model). -/
def pyToDate (v : PyVal) : Option PyDate :=
  match v with
  | .vstr s => parseIsoDate (pyStrip s)
  | .vdate d => some d
  | _ => none

/-- Decimal characters of an integer, as Python `str(int)`. -/
def intChars (n : Int) : List Char :=
  if n < 0 then '-' :: natChars n.natAbs else natChars n.natAbs

/-- Zero-padded two-digit decimal. -/
def pad2 (n : Nat) : List Char := if n < 10 then '0' :: natChars n else natChars n

/-- Zero-padded four-digit decimal. -/
def pad4 (n : Nat) : List Char :=
  if n < 10 then '0' :: '0' :: '0' :: natChars n
  else if n < 100 then '0' :: '0' :: natChars n
  else if n < 1000 then '0' :: natChars n
  else natChars n

/-- ISO rendering of a date, as Python `str(datetime.date)`. -/
def isoChars (d : PyDate) : List Char :=
  pad4 d.year ++ '-' :: pad2 d.month ++ '-' :: pad2 d.day

/-- The least `k` (starting at the given one, within the fuel) such that
the denominator divides `10 ^ k`; used to render a rational's minimal
decimal expansion. -/
def pow10ExpGo (den : Nat) : Nat → Nat → Nat
  | 0, k => k
  | fuel+1, k => if 10 ^ k % den = 0 then k else pow10ExpGo den fuel (k + 1)

/-- Model of Python `str` on a float: the minimal decimal expansion of the
rational.  Python prints the shortest decimal that round-trips the binary
double, which coincides with this on the decimal-parsed values the
pipeline produces (`str(12.5)` is "12.5", `str(45.0)` is "45.0"); floats
of extreme magnitude, which Python prints in scientific notation, and
denominators dividing no power of ten (impossible for a parsed decimal)
are outside the model. -/
def floatChars (q : ℚ) : List Char :=
  if q.den = 1 then intChars q.num ++ ".0".toList
  else
    let k := pow10ExpGo q.den (q.den + 1) 0
    let a := q.num.natAbs * (10 ^ k / q.den)
    let ds := natChars a
    let padded := List.replicate (k + 1 - ds.length) '0' ++ ds
    let ip := padded.take (padded.length - k)
    let fp := padded.drop (padded.length - k)
    (if q.num < 0 then ['-'] else []) ++ ip ++ '.' :: fp

/-- Model of Python `str(value)` for the cell shapes the pipeline produces.
Strings, ints, bools, dates and `None` follow Python exactly and floats
follow the decimal rendering above; the rendering of raw JSON containers
(unreachable in the verified claims) is approximated as empty. -/
def pyStrOf : PyVal → List Char
  | .vnone => "None".toList
  | .vstr s => s
  | .vint n => intChars n
  | .vbool b => if b then "True".toList else "False".toList
  | .vdate d => isoChars d
  | .vfloat q => floatChars q
  | .vobj _ => []

/-- A cleaned value as passed to the parameterized INSERT: SQL NULL, a
float, an int, a date, or trimmed text. -/
inductive CVal where
  | cnull
  | cnum (q : ℚ)
  | cint (n : Int)
  | cdate (d : PyDate)
  | cstr (s : List Char)
deriving DecidableEq, Repr

/-- Lines 101-120, `clean_value`: missing sentinels become NULL; "numeric"
parses as float, "integer" parses as float then truncates, "date" parses a
calendar date, each with NULL on failure; anything else is stringified and
trimmed. -/
def clean_value (value : PyVal) (expected_type : List Char) : CVal :=
  if isMissingVal value then .cnull
  else if expected_type = "numeric".toList then
    match pyFloat value with
    | some q => .cnum q
    | none => .cnull
  else if expected_type = "integer".toList then
    match pyFloat value with
    | some q => .cint (truncRat q)
    | none => .cnull
  else if expected_type = "date".toList then
    match pyToDate value with
    | some d => .cdate d
    | none => .cnull
  else .cstr (pyStrip (pyStrOf value))

/-- Line 128, `column_types[...].split('(')[0].lower()`: the SQL type name
before any parenthesis, lowercased. -/
def typeKeyOf (t : List Char) : List Char := pyLower (t.takeWhile (fun c => !(c = '(')))

/-- Lines 127-130: one row's values cleaned against the per-column types. -/
def cleanRow (colTypes : List (List Char)) (row : List PyVal) : List CVal :=
  (row.zip colTypes).map (fun p => clean_value p.1 (typeKeyOf p.2))

/-- Lines 126-141, the insert loop.  Whether the database accepts a row is
abstracted by the oracle `ok`; the loop cleans each row, attempts it, and on
failure logs the offending cleaned row and continues with the next row.
Returns (inserted rows, logged rows) in original order. -/
def insertRows (ok : List CVal → Bool) (colTypes : List (List Char)) :
    List (List PyVal) → List (List CVal) × List (List CVal)
  | [] => ([], [])
  | row :: rest =>
    let cleaned := cleanRow colTypes row
    let result := insertRows ok colTypes rest
    if ok cleaned then (cleaned :: result.1, result.2)
    else (result.1, cleaned :: result.2)

/-- Observable outcome of the load phase: the rows inserted, the rows
logged as failed, how many commits ran after the loop, and whether the
cursor and connection were closed. -/
structure LoadOutcome where
  inserted : List (List CVal)
  failedLog : List (List CVal)
  commits : Nat
  cursorClosed : Bool
  connClosed : Bool

/-- Lines 126-147: run the insert loop, then a single `conn.commit()`,
then `cur.close()` and `conn.close()`. -/
def runInsertLoop (ok : List CVal → Bool) (colTypes : List (List Char))
    (rows : List (List PyVal)) : LoadOutcome :=
  let result := insertRows ok colTypes rows
  { inserted := result.1
    failedLog := result.2
    commits := 1
    cursorClosed := true
    connClosed := true }

/-- Scalar JSON values as pandas cell values (`None` becomes a missing
marker; a list-valued field stays a single object per the normalizer's
design). -/
def toPyVal : JVal → PyVal
  | .jnull => .vnone
  | .jbool b => .vbool b
  | .jnum q => .vfloat q
  | .jstr s => .vstr s
  | v => .vobj v

/-- `pd.json_normalize` flattening of one record: nested object fields
produce dot-joined keys; other values become cells.  Fuel bounds the
nesting depth (supplied ≥ the recursion depth of any decoded value used). -/
def flattenPairs : Nat → List Char → List (List Char × JVal) → List (List Char × PyVal)
  | 0, _, _ => []
  | fuel+1, keyAcc, kvs =>
    kvs.flatMap (fun kv =>
      let key := if keyAcc.isEmpty then kv.1 else keyAcc ++ '.' :: kv.1
      match kv.2 with
      | .jobj kvs2 => flattenPairs fuel key kvs2
      | v => [(key, toPyVal v)])

/-- The flattened records of a decoded document: a list of objects gives
one record per object, a single object gives one record (scalar documents,
which make `pd.json_normalize` raise, are outside the model). -/
def recordsOf (data : JVal) : List (List (List Char × PyVal)) :=
  match data with
  | .jarr xs =>
    xs.map (fun x =>
      match x with
      | .jobj kvs => flattenPairs 100 [] kvs
      | _ => [])
  | .jobj kvs => [flattenPairs 100 [] kvs]
  | _ => []

/-- Union of record keys in order of first appearance (the DataFrame's
column order). -/
def unionKeys (recs : List (List (List Char × PyVal))) : List (List Char) :=
  recs.foldl
    (fun acc r => r.foldl (fun acc2 kv => if kv.1 ∈ acc2 then acc2 else acc2 ++ [kv.1]) acc)
    []

/-- Cell of a record at a key; a missing key is a pandas missing marker. -/
def lookupKey (r : List (List Char × PyVal)) (k : List Char) : PyVal :=
  match r.find? (fun kv => kv.1 = k) with
  | some kv => kv.2
  | none => .vnone

/-- Line 98, the `BillDate` pre-pass on one cell:
`pd.to_datetime(..., errors='coerce').dt.date` (parse failure gives NaT,
i.e. a missing marker). -/
def coerceDateCell (v : PyVal) : PyVal :=
  match pyToDate v with
  | some d => .vdate d
  | none => .vnone

/-- Observable result of the transform pipeline: the sanitized column
names, their inferred SQL types, and the cleaned rows passed to INSERT. -/
structure PipelineResult where
  columns : List (List Char)
  colTypes : List (List Char)
  rows : List (List CVal)
deriving DecidableEq, Repr

/-- Steps 2-9 of the script on a response text: decode (with repair
fallback), normalize to a table, sanitize column names, infer types, apply
the `BillDate` pre-pass, and clean every row for insertion.  `none` models
the fatal decode abort. -/
def runPipeline (text : List Char) : Option PipelineResult :=
  match (decodeResponse text).1 with
  | none => none
  | some data =>
    let recs := recordsOf data
    let rawCols := unionKeys recs
    let cols := cleaned_columns rawCols
    let cells := recs.map (fun r => rawCols.map (lookupKey r))
    let cells2 :=
      if "BillDate".toList ∈ cols then
        cells.map (fun row =>
          (row.zip cols).map (fun p =>
            if p.2 = "BillDate".toList then coerceDateCell p.1 else p.1))
      else cells
    let types := cols.map infer_pg_type
    some { columns := cols, colTypes := types, rows := cells2.map (cleanRow types) }

/-- The end-to-end scenario's API response text:
`[{"BillDate":"2024-01-05","Qty":"3","GSTAmount":"45.00"}]`. -/
def apiText : List Char :=
  "[\x7b\"BillDate\":\"2024-01-05\",\"Qty\":\"3\",\"GSTAmount\":\"45.00\"\x7d]".toList

/-- No two consecutive underscores. -/
def noDoubleUnderscore : List Char → Bool
  | c :: d :: rest => !(c = '_' && d = '_') && noDoubleUnderscore (d :: rest)
  | _ => true

/-- The spec's sanitized-identifier predicate (section 8 of the spec):
only word characters, no leading or trailing underscore, no underscore
run. -/
def isCleanIdent (s : List Char) : Bool :=
  s.all isWordChar && !(s.head? == some '_') && !(s.getLast? == some '_') &&
    noDoubleUnderscore s

/-- A text has a stray backslash: some backslash whose next character (if
any) is not a legal JSON escape follower. -/
def hasStray : List Char → Bool
  | [] => false
  | c :: rest =>
    (c = '\\' && !(rest.head?.any (fun d => d ∈ jsonEscapeFollowers))) || hasStray rest

/-- The spec's description of the deduplication choice at one column:
either the cleaned name is fresh and kept, or the first unused numeric
suffix is appended. -/
def minimalSuffixChoice (prev : List (List Char)) (cc out : List Char) : Prop :=
  (cc ∉ prev ∧ out = cc) ∨
  (cc ∈ prev ∧ ∃ k, 1 ≤ k ∧ out = suffixName cc k ∧ suffixName cc k ∉ prev ∧
    ∀ j, 1 ≤ j → j < k → suffixName cc j ∈ prev)

set_option allowUnsafeReducibility true
attribute [semireducible] Rat.mul Rat.add Rat.inv Rat.sub

/-- Membership in a cons list unfolded (convenience for concrete proofs). -/
theorem containsSub_here (needle c : Char) (rest : List Char) :
    containsSub [needle] (c :: rest) = ((needle == c) || containsSub [needle] rest) := by
  simp [containsSub, List.isPrefixOf]

/-- A false boolean is not true (rewriting helper). -/
theorem bool_ne_true (b : Bool) (h : b = false) : ¬ (b = true) := by simp [h]

/-- The first branch condition of `infer_pg_type` is false when its rule
does not apply (helper for the first-match-wins clauses). -/
theorem infer_first_cond_false (n : List Char)
    (h1 : ¬ (containsSub "date".toList (pyLower n) = true ∧ pyLower n ≠ "billmonth".toList)) :
    (containsSub "date".toList (pyLower n) && !decide (pyLower n = "billmonth".toList)) = false := by
  rcases Bool.eq_false_or_eq_true (containsSub "date".toList (pyLower n)) with hd | hd
  · have hbm : pyLower n = "billmonth".toList := by
      by_contra hne
      exact h1 ⟨hd, hne⟩
    simp [hbm]
  · rw [hd]
    rfl

/-- C1: `infer_pg_type` depends only on the column name (it is a pure Lean
function of it), computed by case-insensitive substring match with
first-match-wins in the order: contains "date" (and the lowercased name is
not "billmonth") gives DATE; contains "month" gives TEXT; contains "qty" or
"points" gives INTEGER; contains one of "amount", "price", "gst", "disc",
"charges", "percent", "volume" gives NUMERIC(10,2); otherwise TEXT.  The
spec's five examples are included. -/
theorem infer_pg_type_matches_spec :
    (∀ n, containsSub "date".toList (pyLower n) = true → pyLower n ≠ "billmonth".toList →
      infer_pg_type n = "DATE".toList) ∧
    (∀ n, ¬ (containsSub "date".toList (pyLower n) = true ∧ pyLower n ≠ "billmonth".toList) →
      containsSub "month".toList (pyLower n) = true →
      infer_pg_type n = "TEXT".toList) ∧
    (∀ n, ¬ (containsSub "date".toList (pyLower n) = true ∧ pyLower n ≠ "billmonth".toList) →
      containsSub "month".toList (pyLower n) = false →
      (containsSub "qty".toList (pyLower n) || containsSub "points".toList (pyLower n)) = true →
      infer_pg_type n = "INTEGER".toList) ∧
    (∀ n, ¬ (containsSub "date".toList (pyLower n) = true ∧ pyLower n ≠ "billmonth".toList) →
      containsSub "month".toList (pyLower n) = false →
      (containsSub "qty".toList (pyLower n) || containsSub "points".toList (pyLower n)) = false →
      (["amount", "price", "gst", "disc", "charges", "percent", "volume"].any
        (fun x => containsSub x.toList (pyLower n))) = true →
      infer_pg_type n = "NUMERIC(10,2)".toList) ∧
    (∀ n, ¬ (containsSub "date".toList (pyLower n) = true ∧ pyLower n ≠ "billmonth".toList) →
      containsSub "month".toList (pyLower n) = false →
      (containsSub "qty".toList (pyLower n) || containsSub "points".toList (pyLower n)) = false →
      (["amount", "price", "gst", "disc", "charges", "percent", "volume"].any
        (fun x => containsSub x.toList (pyLower n))) = false →
      infer_pg_type n = "TEXT".toList) ∧
    infer_pg_type "GSTAmount".toList = "NUMERIC(10,2)".toList ∧
    infer_pg_type "BillDate".toList = "DATE".toList ∧
    infer_pg_type "BillMonth".toList = "TEXT".toList ∧
    infer_pg_type "Qty".toList = "INTEGER".toList ∧
    infer_pg_type "Description".toList = "TEXT".toList := by
  refine ⟨?_, ?_, ?_, ?_, ?_, by decide, by decide, by decide, by decide, by decide⟩
  · intro n h1 h2
    have hb : (containsSub "date".toList (pyLower n) && !decide (pyLower n = "billmonth".toList))
        = true := by
      rw [h1]
      simpa using h2
    simp only [infer_pg_type]
    rw [if_pos hb]
  · intro n h1 h2
    simp only [infer_pg_type]
    rw [if_neg (bool_ne_true _ (infer_first_cond_false n h1)), if_pos h2]
  · intro n h1 h2 h3
    have hq : (["qty", "points"].any (fun x => containsSub x.toList (pyLower n))) = true := by
      simp only [List.any_cons, List.any_nil, Bool.or_false]
      exact h3
    simp only [infer_pg_type]
    rw [if_neg (bool_ne_true _ (infer_first_cond_false n h1)), if_neg (bool_ne_true _ h2),
      if_pos hq]
  · intro n h1 h2 h3 h4
    have hq : (["qty", "points"].any (fun x => containsSub x.toList (pyLower n))) = false := by
      simp only [List.any_cons, List.any_nil, Bool.or_false]
      exact h3
    simp only [infer_pg_type]
    rw [if_neg (bool_ne_true _ (infer_first_cond_false n h1)), if_neg (bool_ne_true _ h2),
      if_neg (bool_ne_true _ hq), if_pos h4]
  · intro n h1 h2 h3 h4
    have hq : (["qty", "points"].any (fun x => containsSub x.toList (pyLower n))) = false := by
      simp only [List.any_cons, List.any_nil, Bool.or_false]
      exact h3
    simp only [infer_pg_type]
    rw [if_neg (bool_ne_true _ (infer_first_cond_false n h1)), if_neg (bool_ne_true _ h2),
      if_neg (bool_ne_true _ hq), if_neg (bool_ne_true _ h4)]

/-- C1 witness: the DATE clause applied at the concrete name "BillDate". -/
theorem infer_pg_type_matches_spec_witness :
    infer_pg_type "BillDate".toList = "DATE".toList :=
  infer_pg_type_matches_spec.1 ("BillDate".toList) (by decide) (by decide)

/-- A missing sentinel is NULL for every expected type (line 102-103). -/
theorem clean_value_missing (v : PyVal) (t : List Char) (hm : isMissingVal v = true) :
    clean_value v t = CVal.cnull := by
  unfold clean_value
  rw [if_pos hm]

/-- Non-missing "numeric" coercion is the float parse with NULL on failure. -/
theorem clean_value_numeric (v : PyVal) (hm : isMissingVal v = false) :
    clean_value v ("numeric".toList) =
      (match pyFloat v with
       | some q => CVal.cnum q
       | none => CVal.cnull) := by
  unfold clean_value
  rw [if_neg (bool_ne_true _ hm), if_pos rfl]

/-- Non-missing "integer" coercion is the float parse truncated toward zero
with NULL on failure. -/
theorem clean_value_integer (v : PyVal) (hm : isMissingVal v = false) :
    clean_value v ("integer".toList) =
      (match pyFloat v with
       | some q => CVal.cint (truncRat q)
       | none => CVal.cnull) := by
  unfold clean_value
  rw [if_neg (bool_ne_true _ hm), if_neg (by decide), if_pos rfl]

/-- Non-missing "date" coercion is the calendar-date parse with NULL on
failure. -/
theorem clean_value_date (v : PyVal) (hm : isMissingVal v = false) :
    clean_value v ("date".toList) =
      (match pyToDate v with
       | some d => CVal.cdate d
       | none => CVal.cnull) := by
  unfold clean_value
  rw [if_neg (bool_ne_true _ hm), if_neg (by decide), if_neg (by decide), if_pos rfl]

/-- Any expected type other than "numeric", "integer" and "date" takes the
default branch: stringify and trim (for every non-missing value). -/
theorem clean_value_other (v : PyVal) (t : List Char) (hm : isMissingVal v = false)
    (h1 : t ≠ "numeric".toList) (h2 : t ≠ "integer".toList) (h3 : t ≠ "date".toList) :
    clean_value v t = CVal.cstr (pyStrip (pyStrOf v)) := by
  unfold clean_value
  rw [if_neg (bool_ne_true _ hm), if_neg h1, if_neg h2, if_neg h3]

/-- C3: the spec's concrete examples of `clean_value` (None/"numeric" and
"N/A"/"text" give NULL, "12.50"/"numeric" gives 12.5, "abc"/"integer" gives
NULL), and its general clauses over every value: a missing sentinel is NULL
for every expected type; "numeric" is the float parse with NULL on failure;
"integer" is the "numeric" float parse truncated toward zero, NULL on
failure; "date" parses a calendar date with NULL on failure; any other
expected type yields the stringified value with surrounding whitespace
trimmed. -/
theorem clean_value_matches_spec :
    clean_value PyVal.vnone ("numeric".toList) = CVal.cnull ∧
    clean_value (PyVal.vstr ("N/A".toList)) ("text".toList) = CVal.cnull ∧
    clean_value (PyVal.vstr ("12.50".toList)) ("numeric".toList) = CVal.cnum (25 / 2) ∧
    clean_value (PyVal.vstr ("abc".toList)) ("integer".toList) = CVal.cnull ∧
    (∀ v t, isMissingVal v = true → clean_value v t = CVal.cnull) ∧
    (∀ v, isMissingVal v = false → clean_value v ("numeric".toList) =
      (match pyFloat v with
       | some q => CVal.cnum q
       | none => CVal.cnull)) ∧
    (∀ v, clean_value v ("integer".toList) =
      (match clean_value v ("numeric".toList) with
       | CVal.cnum q => CVal.cint (truncRat q)
       | _ => CVal.cnull)) ∧
    (∀ v, isMissingVal v = false → clean_value v ("date".toList) =
      (match pyToDate v with
       | some d => CVal.cdate d
       | none => CVal.cnull)) ∧
    (∀ v t, isMissingVal v = false → t ≠ "numeric".toList → t ≠ "integer".toList →
      t ≠ "date".toList → clean_value v t = CVal.cstr (pyStrip (pyStrOf v))) := by
  refine ⟨by decide, by decide, by decide, by decide, clean_value_missing,
    clean_value_numeric, ?_, clean_value_date, clean_value_other⟩
  intro v
  by_cases hm : isMissingVal v = true
  · rw [clean_value_missing v _ hm, clean_value_missing v _ hm]
  · have hm2 : isMissingVal v = false := by simpa using hm
    rw [clean_value_integer v hm2, clean_value_numeric v hm2]
    cases pyFloat v with
    | none => rfl
    | some q => rfl

/-- C3 witness: the missing-sentinel clause applied at `None` and type
"text". -/
theorem clean_value_matches_spec_witness :
    clean_value PyVal.vnone ("text".toList) = CVal.cnull :=
  clean_value_matches_spec.2.2.2.2.1 PyVal.vnone ("text".toList) (by decide)

/-- C5: a text the strict parse accepts is returned by the strict path and
the repair path is never invoked; and the concrete text `"C:\Users"`, whose
stray backslash makes the strict parse fail, is repaired into a text whose
retry parse succeeds (yielding the string value `C:\Users`). -/
theorem decoder_roundtrip :
    (∀ t v, parseJson t = some v → decodeResponse t = (some v, false)) ∧
    parseJson ("\"C:\\Users\"".toList) = none ∧
    decodeResponse ("\"C:\\Users\"".toList) = (some (JVal.jstr ("C:\\Users".toList)), true) := by
  refine ⟨?_, rfl, rfl⟩
  intro t v h
  unfold decodeResponse
  rw [h]

/-- C5 witness: the strict-path clause applied at the valid JSON text
`[]`. -/
theorem decoder_roundtrip_witness :
    decodeResponse ("[]".toList) = (some (JVal.jarr []), false) :=
  decoder_roundtrip.1 ("[]".toList) (JVal.jarr []) rfl

/-- C6 counterexample: the two-character text consisting of the single
legitimate JSON escape sequence backslash-backslash is NOT left untouched:
its second backslash (followed by end of text, hence not by any of the
escape followers) is itself doubled by the regex, yielding three
backslashes. -/
theorem repair_counterexample :
    repairBackslashes ['\\', '\\'] = ['\\', '\\', '\\'] ∧
    escChar '\\' = some '\\' ∧
    repairBackslashes ['\\', '\\'] ≠ ['\\', '\\'] := by
  exact ⟨rfl, rfl, by decide⟩

/-- A character other than a backslash is kept and scanning continues. -/
theorem repair_keep_nonbackslash (c : Char) (rest : List Char) (h : ¬ c = '\\') :
    repairBackslashes (c :: rest) = c :: repairBackslashes rest := by
  simp only [repairBackslashes]
  rw [if_neg]
  simp [h]

/-- A backslash followed by a legal escape follower is kept; scanning then
continues at the follower itself. -/
theorem repair_keep_escaped (d : Char) (rest : List Char) (h : d ∈ jsonEscapeFollowers) :
    repairBackslashes ('\\' :: d :: rest) = '\\' :: repairBackslashes (d :: rest) := by
  simp only [repairBackslashes]
  rw [if_neg]
  simp [h]

/-- A stray backslash (next character, if any, not a legal follower) is
replaced by two backslashes. -/
theorem repair_double_stray (rest : List Char)
    (h : (rest.head?.any (fun d => d ∈ jsonEscapeFollowers)) = false) :
    repairBackslashes ('\\' :: rest) = '\\' :: '\\' :: repairBackslashes rest := by
  simp only [repairBackslashes]
  rw [if_pos]
  simp [h]

/-- A text with no stray backslash is left unchanged by the repair. -/
theorem repair_no_stray_id : ∀ s, hasStray s = false → repairBackslashes s = s := by
  intro s
  induction s with
  | nil => intro _; rfl
  | cons c rest ih =>
    intro h
    simp only [hasStray, Bool.or_eq_false_iff] at h
    simp only [repairBackslashes]
    rw [if_neg (bool_ne_true _ h.1), ih h.2]

/-- C6 amended: scanning left to right, every backslash whose next
character (if any) is not one of the characters ", \, /, b, f, n, r, t, u
is replaced by two backslashes, and every other character is kept (a kept
backslash's follower is examined next, so two-character escapes with a
non-backslash follower are untouched, and a text with no stray backslash is
unchanged — but the second backslash of a backslash-backslash escape is
itself doubled when what follows it is not one of the listed characters). -/
theorem repair_amended :
    (∀ c rest, ¬ c = '\\' → repairBackslashes (c :: rest) = c :: repairBackslashes rest) ∧
    (∀ d rest, d ∈ jsonEscapeFollowers →
      repairBackslashes ('\\' :: d :: rest) = '\\' :: repairBackslashes (d :: rest)) ∧
    (∀ rest, (rest.head?.any (fun d => d ∈ jsonEscapeFollowers)) = false →
      repairBackslashes ('\\' :: rest) = '\\' :: '\\' :: repairBackslashes rest) ∧
    (∀ d rest, d ∈ jsonEscapeFollowers → ¬ d = '\\' →
      repairBackslashes ('\\' :: d :: rest) = '\\' :: d :: repairBackslashes rest) ∧
    (∀ s, hasStray s = false → repairBackslashes s = s) :=
  ⟨repair_keep_nonbackslash, repair_keep_escaped, repair_double_stray,
    fun d rest h hne => by rw [repair_keep_escaped d rest h, repair_keep_nonbackslash d rest hne],
    repair_no_stray_id⟩

/-- C6 amended witness: the escape sequence backslash-n inside a text is
untouched. -/
theorem repair_amended_witness :
    repairBackslashes ['\\', 'n', 'a'] = '\\' :: repairBackslashes ['n', 'a'] :=
  repair_amended.2.1 'n' ['a'] (by decide)

/-- `subNonWord` of a name with no word characters is all underscores. -/
theorem subNonWord_all_underscore : ∀ (col : List Char), (∀ c ∈ col, isWordChar c = false) →
    subNonWord col = List.replicate col.length '_'
  | [], _ => rfl
  | c :: rest, h => by
    have hc := h c (List.mem_cons_self c rest)
    have hr : ∀ x ∈ rest, isWordChar x = false := fun x hx => h x (List.mem_cons_of_mem c hx)
    show (if isWordChar c then c else '_') :: subNonWord rest = _
    rw [if_neg (bool_ne_true _ hc), subNonWord_all_underscore rest hr]
    rfl

/-- Collapsing inside an underscore run drops the remaining underscores. -/
theorem collapseGo_true_replicate : ∀ n, collapseGo true (List.replicate n '_') = []
  | 0 => rfl
  | n+1 => collapseGo_true_replicate n

/-- A nonempty all-underscore string collapses to one underscore. -/
theorem collapseUnderscores_replicate_succ (n : Nat) :
    collapseUnderscores (List.replicate (n + 1) '_') = ['_'] := by
  have h : collapseUnderscores (List.replicate (n + 1) '_')
      = '_' :: collapseGo true (List.replicate n '_') := rfl
  rw [h, collapseGo_true_replicate n]

/-- C10: an input with no word characters at all cleans to the empty
string, and that empty identifier passes through the deduplication step
into the schema's column list. -/
theorem clean_column_no_word_chars (col : List Char) (h : ∀ c ∈ col, isWordChar c = false) :
    clean_column col = [] ∧ cleaned_columns [col] = [[]] := by
  have hmain : clean_column col = [] := by
    show (if pyLower (stripUnderscores (collapseUnderscores (subNonWord col)))
            ∈ postgres_reserved_keywords
          then stripUnderscores (collapseUnderscores (subNonWord col)) ++ ['_']
          else stripUnderscores (collapseUnderscores (subNonWord col))) = []
    rw [subNonWord_all_underscore col h]
    cases col with
    | nil => decide
    | cons c rest =>
      simp only [List.length_cons, collapseUnderscores_replicate_succ]
      decide
  refine ⟨hmain, ?_⟩
  show dedupGo [] [col] = [[]]
  simp [dedupGo, chooseName, hmain]

/-- C10 witness: the concrete input "!!!". -/
theorem clean_column_no_word_chars_witness :
    clean_column ("!!!".toList) = [] ∧ cleaned_columns [("!!!".toList)] = [[]] :=
  clean_column_no_word_chars ("!!!".toList) (by decide)

/-- Filtering a list by a predicate and by its negation partitions its
length. -/
theorem filter_partition_length (p : List CVal → Bool) : ∀ (l : List (List CVal)),
    (l.filter p).length + (l.filter (fun r => !(p r))).length = l.length
  | [] => rfl
  | r :: rest => by
    have ih := filter_partition_length p rest
    rcases Bool.eq_false_or_eq_true (p r) with hp | hp <;>
      simp [List.filter_cons, hp] <;> omega

/-- The insert loop cleans every row and partitions the cleaned rows into
accepted and logged ones, in order. -/
theorem insertRows_spec (ok : List CVal → Bool) (colTypes : List (List Char)) :
    ∀ rows, (insertRows ok colTypes rows).1 = (rows.map (cleanRow colTypes)).filter ok ∧
      (insertRows ok colTypes rows).2
        = (rows.map (cleanRow colTypes)).filter (fun r => !(ok r))
  | [] => ⟨rfl, rfl⟩
  | row :: rest => by
    have ih := insertRows_spec ok colTypes rest
    rcases Bool.eq_false_or_eq_true (ok (cleanRow colTypes row)) with hp | hp <;>
      simp [insertRows, List.filter_cons, hp, ih.1, ih.2]

/-- C7: every row is processed (inserted and logged rows add up to the
input count, the split being exactly by the oracle's acceptance), a
failing row is logged as the cleaned row while later rows still run, a
value failing numeric coercion makes its cell NULL rather than aborting,
and after the loop there is exactly one commit and the cursor and
connection are closed. -/
theorem insert_loop_error_isolation (ok : List CVal → Bool) (colTypes : List (List Char))
    (rows : List (List PyVal)) :
    (runInsertLoop ok colTypes rows).inserted.length
        + (runInsertLoop ok colTypes rows).failedLog.length = rows.length ∧
    (runInsertLoop ok colTypes rows).inserted = (rows.map (cleanRow colTypes)).filter ok ∧
    (runInsertLoop ok colTypes rows).failedLog
        = (rows.map (cleanRow colTypes)).filter (fun r => !(ok r)) ∧
    (runInsertLoop ok colTypes rows).commits = 1 ∧
    (runInsertLoop ok colTypes rows).cursorClosed = true ∧
    (runInsertLoop ok colTypes rows).connClosed = true ∧
    (∀ v, isMissingVal v = false → pyFloat v = none →
      clean_value v ("numeric".toList) = CVal.cnull) := by
  have hs := insertRows_spec ok colTypes rows
  refine ⟨?_, hs.1, hs.2, rfl, rfl, rfl, ?_⟩
  · show (insertRows ok colTypes rows).1.length + (insertRows ok colTypes rows).2.length
        = rows.length
    rw [hs.1, hs.2, filter_partition_length]
    exact List.length_map rows (cleanRow colTypes)
  · intro v hm hf
    rw [clean_value_numeric v hm, hf]

/-- C7 witness: with an oracle rejecting every row, the single row whose
value fails numeric coercion is logged as a NULL-carrying cleaned row, and
the coercion failure itself yields NULL. -/
theorem insert_loop_error_isolation_witness :
    (runInsertLoop (fun _ => false) ["NUMERIC(10,2)".toList]
        [[PyVal.vstr ("abc".toList)], [PyVal.vstr ("2".toList)]]).failedLog
      = [[CVal.cnull], [CVal.cnum 2]] ∧
    clean_value (PyVal.vstr ("abc".toList)) ("numeric".toList) = CVal.cnull := by
  constructor
  · rw [(insert_loop_error_isolation (fun _ => false) ["NUMERIC(10,2)".toList]
      [[PyVal.vstr ("abc".toList)], [PyVal.vstr ("2".toList)]]).2.2.1]
    decide
  · exact (insert_loop_error_isolation (fun _ => false) [] []).2.2.2.2.2.2
      (PyVal.vstr ("abc".toList)) (by decide) (by decide)

/-- Every character of `subNonWord` output is a word character. -/
theorem subNonWord_all_word (s : List Char) : ∀ c ∈ subNonWord s, isWordChar c = true := by
  intro c hc
  rcases List.mem_map.mp hc with ⟨a, _, rfl⟩
  by_cases hw : isWordChar a = true
  · rw [if_pos hw]
    exact hw
  · rw [if_neg hw]
    decide

/-- `collapseGo` only emits characters of its input. -/
theorem collapseGo_subset : ∀ (s : List Char) (b : Bool) (c : Char), c ∈ collapseGo b s → c ∈ s
  | [], _, c, h => absurd h (List.not_mem_nil c)
  | a :: rest, b, c, h => by
    by_cases ha : a = '_'
    · subst ha
      cases b with
      | true =>
        have h2 : c ∈ collapseGo true rest := h
        exact List.mem_cons_of_mem _ (collapseGo_subset rest true c h2)
      | false =>
        have h2 : c ∈ '_' :: collapseGo true rest := h
        rcases List.mem_cons.mp h2 with rfl | h3
        · exact List.mem_cons_self _ _
        · exact List.mem_cons_of_mem _ (collapseGo_subset rest true c h3)
    · have he : collapseGo b (a :: rest) = a :: collapseGo false rest := by
        simp [collapseGo, ha]
      rw [he] at h
      rcases List.mem_cons.mp h with rfl | h3
      · exact List.mem_cons_self _ _
      · exact List.mem_cons_of_mem _ (collapseGo_subset rest false c h3)

/-- `stripUnderscores` only removes characters. -/
theorem stripUnderscores_subset (s : List Char) (c : Char) (h : c ∈ stripUnderscores s) :
    c ∈ s := by
  have h1 : c ∈ ((s.dropWhile (fun c => c = '_')).reverse.dropWhile (fun c => c = '_')).reverse := h
  have h2 := List.mem_reverse.mp h1
  have h3 := (List.dropWhile_suffix (fun c => c = '_')).subset h2
  have h4 := List.mem_reverse.mp h3
  exact (List.dropWhile_suffix (fun c => c = '_')).subset h4

/-- After `dropWhile`, the head (if any) fails the predicate. -/
theorem dropWhile_head_false (p : Char → Bool) : ∀ (s : List Char) (c : Char),
    (s.dropWhile p).head? = some c → p c = false
  | [], c, h => by simp at h
  | a :: rest, c, h => by
    by_cases hp : p a = true
    · rw [List.dropWhile_cons, if_pos hp] at h
      exact dropWhile_head_false p rest c h
    · rw [List.dropWhile_cons, if_neg hp] at h
      simp only [List.head?_cons, Option.some.injEq] at h
      subst h
      simpa using hp

/-- The head of a nonempty prefix agrees with the head of the full list. -/
theorem prefix_head_eq (l1 l2 : List Char) (h : l1 <+: l2) (hne : l1 ≠ []) :
    l1.head? = l2.head? := by
  rcases h with ⟨t, rfl⟩
  cases l1 with
  | nil => exact absurd rfl hne
  | cons a r => rfl

/-- The no-double-underscore invariant restricts to a tail. -/
theorem noDouble_tail : ∀ (c : Char) (l : List Char),
    noDoubleUnderscore (c :: l) = true → noDoubleUnderscore l = true
  | _, [], _ => rfl
  | _, _ :: _, h => (Bool.and_eq_true _ _ ▸ h).2

/-- The no-double-underscore invariant restricts to a left factor. -/
theorem noDouble_append_left : ∀ (l t : List Char),
    noDoubleUnderscore (l ++ t) = true → noDoubleUnderscore l = true
  | [], _, _ => rfl
  | [_], _, _ => rfl
  | c :: d :: l, t, h => by
    have h2 : noDoubleUnderscore (c :: d :: (l ++ t)) = true := h
    have h3 := Bool.and_eq_true _ _ ▸ h2
    show (!(decide (c = '_') && decide (d = '_')) && noDoubleUnderscore (d :: l)) = true
    exact (Bool.and_eq_true _ _).symm ▸
      And.intro h3.1 (noDouble_append_left (d :: l) t h3.2)

/-- The no-double-underscore invariant survives `dropWhile`. -/
theorem noDouble_dropWhile (p : Char → Bool) : ∀ (s : List Char),
    noDoubleUnderscore s = true → noDoubleUnderscore (s.dropWhile p) = true
  | [], h => h
  | a :: rest, h => by
    rw [List.dropWhile_cons]
    by_cases hp : p a = true
    · rw [if_pos hp]
      exact noDouble_dropWhile p rest (noDouble_tail a rest h)
    · rw [if_neg hp]
      exact h

/-- `collapseGo` output has no two consecutive underscores, and in run
state it never starts with an underscore. -/
theorem collapseGo_noDouble : ∀ (s : List Char),
    (∀ b, noDoubleUnderscore (collapseGo b s) = true) ∧
      (collapseGo true s).head? ≠ some '_'
  | [] => ⟨fun b => by cases b <;> rfl, by simp [collapseGo]⟩
  | c :: rest => by
    have ih := collapseGo_noDouble rest
    by_cases hc : c = '_'
    · subst hc
      refine ⟨fun b => ?_, ?_⟩
      · cases b with
        | true => exact ih.1 true
        | false =>
          show noDoubleUnderscore ('_' :: collapseGo true rest) = true
          cases hh : collapseGo true rest with
          | nil => rfl
          | cons d l =>
            have hd : ¬ d = '_' := by
              have h2 := ih.2
              rw [hh] at h2
              simpa using h2
            show (!(decide ('_' = '_') && decide (d = '_')) && noDoubleUnderscore (d :: l))
                = true
            have h3 := ih.1 true
            rw [hh] at h3
            simp [hd, h3]
      · exact ih.2
    · have he : ∀ b, collapseGo b (c :: rest) = c :: collapseGo false rest := by
        intro b
        simp [collapseGo, hc]
      refine ⟨fun b => ?_, ?_⟩
      · rw [he b]
        cases hh : collapseGo false rest with
        | nil => rfl
        | cons d l =>
          show (!(decide (c = '_') && decide (d = '_')) && noDoubleUnderscore (d :: l)) = true
          have h3 := ih.1 false
          rw [hh] at h3
          simp [hc, h3]
      · rw [he true]
        simp [hc]

/-- The reverse-dropWhile-reverse combination yields a prefix. -/
theorem strip_tail_prefix (p : Char → Bool) (t : List Char) :
    ((t.reverse.dropWhile p).reverse) <+: t := by
  have h1 : t.reverse.dropWhile p <:+ t.reverse := List.dropWhile_suffix p
  have h2 : (t.reverse.dropWhile p).reverse <+: t.reverse.reverse := by
    rw [List.reverse_prefix]
    exact h1
  rwa [List.reverse_reverse] at h2

/-- `stripUnderscores` keeps the no-double-underscore invariant and leaves
no underscore at either end. -/
theorem stripUnderscores_spec (s : List Char) (hnd : noDoubleUnderscore s = true) :
    noDoubleUnderscore (stripUnderscores s) = true ∧
    (stripUnderscores s).head? ≠ some '_' ∧
    (stripUnderscores s).getLast? ≠ some '_' := by
  have hndt : noDoubleUnderscore (s.dropWhile (fun c => c = '_')) = true :=
    noDouble_dropWhile _ s hnd
  have hpre : stripUnderscores s <+: s.dropWhile (fun c => c = '_') :=
    strip_tail_prefix (fun c => c = '_') (s.dropWhile (fun c => c = '_'))
  refine ⟨?_, ?_, ?_⟩
  · rcases hpre with ⟨r, hr⟩
    exact noDouble_append_left _ r (by rw [hr]; exact hndt)
  · by_cases hnil : stripUnderscores s = []
    · rw [hnil]
      simp
    · have hh := prefix_head_eq _ _ hpre hnil
      intro hcontra
      have h2 : (s.dropWhile (fun c => c = '_')).head? = some '_' := by
        rw [← hh]
        exact hcontra
      have h3 := dropWhile_head_false _ s '_' h2
      simp at h3
  · intro hcontra
    have h1 : ((s.dropWhile (fun c => c = '_')).reverse.dropWhile
        (fun c => c = '_')).reverse.getLast? = some '_' := hcontra
    rw [List.getLast?_reverse] at h1
    have h2 := dropWhile_head_false _ _ '_' h1
    simp at h2

/-- Appending one underscore to a string with no trailing underscore keeps
the no-double-underscore invariant. -/
theorem noDouble_append_underscore : ∀ (u : List Char),
    noDoubleUnderscore u = true → u.getLast? ≠ some '_' →
    noDoubleUnderscore (u ++ ['_']) = true
  | [], _, _ => rfl
  | [a], _, hl => by
    have ha : ¬ a = '_' := by simpa using hl
    show (!(decide (a = '_') && decide ('_' = '_')) && noDoubleUnderscore ['_']) = true
    simp [ha, noDoubleUnderscore]
  | a :: b :: u, h, hl => by
    have h2 : (!(decide (a = '_') && decide (b = '_'))
        && noDoubleUnderscore (b :: u)) = true := h
    have h3 := Bool.and_eq_true _ _ ▸ h2
    have hl2 : (b :: u).getLast? ≠ some '_' := by
      rwa [List.getLast?_cons_cons] at hl
    show (!(decide (a = '_') && decide (b = '_'))
        && noDoubleUnderscore ((b :: u) ++ ['_'])) = true
    exact (Bool.and_eq_true _ _).symm ▸
      And.intro h3.1 (noDouble_append_underscore (b :: u) h3.2 hl2)

/-- C2 counterexample: on the input "order" (a reserved keyword) the
sanitizer returns "order_", which ends in an underscore, violating the
claim's no-trailing-underscore property. -/
theorem clean_column_counterexample :
    clean_column ("order".toList) = "order_".toList ∧
    (clean_column ("order".toList)).getLast? = some '_' ∧
    isCleanIdent (clean_column ("order".toList)) = false := by
  exact ⟨by decide, by decide, by decide⟩

/-- C2 amended: for every input, the output of `clean_column` contains only
characters in [A-Za-z0-9_], has no leading underscore and no internal run
of two or more underscores; it ends in an underscore exactly when the
stripped, collapsed name lowercases to a reserved keyword (the keyword
disambiguation step appends one trailing underscore; otherwise there is no
trailing underscore). -/
theorem clean_column_amended (col : List Char) :
    (∀ c ∈ clean_column col, isWordChar c = true) ∧
    (clean_column col).head? ≠ some '_' ∧
    noDoubleUnderscore (clean_column col) = true ∧
    ((clean_column col).getLast? = some '_' ↔
      pyLower (stripUnderscores (collapseUnderscores (subNonWord col)))
        ∈ postgres_reserved_keywords) := by
  have hword : ∀ c ∈ stripUnderscores (collapseUnderscores (subNonWord col)),
      isWordChar c = true := by
    intro c hc
    exact subNonWord_all_word col c
      (collapseGo_subset _ false c (stripUnderscores_subset _ c hc))
  have hnd0 : noDoubleUnderscore (collapseUnderscores (subNonWord col)) = true :=
    (collapseGo_noDouble (subNonWord col)).1 false
  have hs := stripUnderscores_spec (collapseUnderscores (subNonWord col)) hnd0
  by_cases hk : pyLower (stripUnderscores (collapseUnderscores (subNonWord col)))
      ∈ postgres_reserved_keywords
  · have he : clean_column col
        = stripUnderscores (collapseUnderscores (subNonWord col)) ++ ['_'] := by
      show (if pyLower (stripUnderscores (collapseUnderscores (subNonWord col)))
              ∈ postgres_reserved_keywords
            then stripUnderscores (collapseUnderscores (subNonWord col)) ++ ['_']
            else stripUnderscores (collapseUnderscores (subNonWord col))) = _
      exact if_pos hk
    rw [he]
    have hne : stripUnderscores (collapseUnderscores (subNonWord col)) ≠ [] := by
      intro h0
      rw [h0] at hk
      exact absurd hk (by decide)
    refine ⟨?_, ?_, noDouble_append_underscore _ hs.1 hs.2.2, ?_⟩
    · intro c hc
      rcases List.mem_append.mp hc with h1 | h1
      · exact hword c h1
      · rcases List.mem_singleton.mp h1 with rfl
        decide
    · cases hu : stripUnderscores (collapseUnderscores (subNonWord col)) with
      | nil => exact absurd hu hne
      | cons a r =>
        have ha : ¬ a = '_' := by
          have h2 := hs.2.1
          rw [hu] at h2
          simpa using h2
        show (a :: (r ++ ['_'])).head? ≠ some '_'
        simpa using ha
    · simp [List.getLast?_concat, hk]
  · have he : clean_column col = stripUnderscores (collapseUnderscores (subNonWord col)) := by
      show (if pyLower (stripUnderscores (collapseUnderscores (subNonWord col)))
              ∈ postgres_reserved_keywords
            then stripUnderscores (collapseUnderscores (subNonWord col)) ++ ['_']
            else stripUnderscores (collapseUnderscores (subNonWord col))) = _
      exact if_neg hk
    rw [he]
    refine ⟨hword, hs.2.1, hs.1, ?_⟩
    constructor
    · intro h1
      exact absurd h1 hs.2.2
    · intro h1
      exact absurd h1 hk

/-- The non-underscore characters of `subNonWord` output are exactly the
input's non-underscore word characters, in order and unchanged. -/
theorem filter_subNonWord (s : List Char) :
    (subNonWord s).filter (fun c => !(c = '_'))
      = s.filter (fun c => isWordChar c && !(c = '_')) := by
  induction s with
  | nil => rfl
  | cons a rest ih =>
    show ((if isWordChar a then a else '_') :: subNonWord rest).filter (fun c => !(c = '_'))
        = (a :: rest).filter (fun c => isWordChar c && !(c = '_'))
    by_cases hw : isWordChar a = true
    · rw [if_pos hw]
      by_cases hu : a = '_'
      · subst hu
        simp [List.filter_cons, ih]
      · simp [List.filter_cons, hw, hu, ih]
    · rw [if_neg hw]
      have hw2 : isWordChar a = false := by simpa using hw
      simp [List.filter_cons, hw2, ih]

/-- Collapsing underscore runs does not change the non-underscore
characters. -/
theorem filter_collapseGo : ∀ (s : List Char) (b : Bool),
    (collapseGo b s).filter (fun c => !(c = '_')) = s.filter (fun c => !(c = '_'))
  | [], b => by cases b <;> rfl
  | a :: rest, b => by
    by_cases ha : a = '_'
    · subst ha
      have ih := filter_collapseGo rest true
      cases b with
      | true =>
        show (collapseGo true rest).filter (fun c => !(c = '_'))
            = ('_' :: rest).filter (fun c => !(c = '_'))
        rw [ih]
        simp [List.filter_cons]
      | false =>
        show ('_' :: collapseGo true rest).filter (fun c => !(c = '_'))
            = ('_' :: rest).filter (fun c => !(c = '_'))
        simp [List.filter_cons, ih]
    · have ih := filter_collapseGo rest false
      have he : collapseGo b (a :: rest) = a :: collapseGo false rest := by
        simp [collapseGo, ha]
      rw [he]
      simp [List.filter_cons, ha, ih]

/-- Collapsing does not change the non-underscore characters (top form). -/
theorem filter_collapseUnderscores (s : List Char) :
    (collapseUnderscores s).filter (fun c => !(c = '_')) = s.filter (fun c => !(c = '_')) :=
  filter_collapseGo s false

/-- Dropping leading underscores does not change the non-underscore
characters. -/
theorem filter_dropWhile_underscore : ∀ (s : List Char),
    ((s.dropWhile (fun c => c = '_')).filter (fun c => !(c = '_')))
      = s.filter (fun c => !(c = '_'))
  | [] => rfl
  | a :: rest => by
    by_cases ha : a = '_'
    · subst ha
      rw [List.dropWhile_cons, if_pos (by decide), filter_dropWhile_underscore rest]
      simp [List.filter_cons]
    · rw [List.dropWhile_cons, if_neg (by simp [ha])]

/-- Stripping edge underscores does not change the non-underscore
characters. -/
theorem filter_stripUnderscores (s : List Char) :
    (stripUnderscores s).filter (fun c => !(c = '_')) = s.filter (fun c => !(c = '_')) := by
  show (((s.dropWhile (fun c => c = '_')).reverse.dropWhile (fun c => c = '_')).reverse).filter
      (fun c => !(c = '_')) = s.filter (fun c => !(c = '_'))
  rw [List.filter_reverse, filter_dropWhile_underscore, List.filter_reverse,
    List.reverse_reverse, filter_dropWhile_underscore]

/-- C9: `clean_column` preserves the case of every character it keeps: the
non-underscore characters of the output are exactly the input's
non-underscore word characters, in order and with their original case
(lowercasing is only used for the reserved-keyword comparison). -/
theorem clean_column_preserves_case (col : List Char) :
    (clean_column col).filter (fun c => !(c = '_'))
      = col.filter (fun c => isWordChar c && !(c = '_')) := by
  by_cases hk : pyLower (stripUnderscores (collapseUnderscores (subNonWord col)))
      ∈ postgres_reserved_keywords
  · have he : clean_column col
        = stripUnderscores (collapseUnderscores (subNonWord col)) ++ ['_'] := by
      show (if pyLower (stripUnderscores (collapseUnderscores (subNonWord col)))
              ∈ postgres_reserved_keywords
            then stripUnderscores (collapseUnderscores (subNonWord col)) ++ ['_']
            else stripUnderscores (collapseUnderscores (subNonWord col))) = _
      exact if_pos hk
    rw [he, List.filter_append]
    have h1 : (['_'] : List Char).filter (fun c => !(c = '_')) = [] := rfl
    rw [h1, List.append_nil, filter_stripUnderscores, filter_collapseUnderscores,
      filter_subNonWord]
  · have he : clean_column col = stripUnderscores (collapseUnderscores (subNonWord col)) := by
      show (if pyLower (stripUnderscores (collapseUnderscores (subNonWord col)))
              ∈ postgres_reserved_keywords
            then stripUnderscores (collapseUnderscores (subNonWord col)) ++ ['_']
            else stripUnderscores (collapseUnderscores (subNonWord col))) = _
      exact if_neg hk
    rw [he, filter_stripUnderscores, filter_collapseUnderscores, filter_subNonWord]

/-- The code of a decimal digit character. -/
theorem digitChar_lt_ten (n : Nat) (h : n < 10) : (Nat.digitChar n).toNat = 48 + n := by
  interval_cases n <;> rfl

/-- Reading a decimal string with one more digit. -/
theorem decDigitsVal_append (s : List Char) (c : Char) :
    decDigitsVal (s ++ [c]) = decDigitsVal s * 10 + (c.toNat - 48) := by
  unfold decDigitsVal
  rw [List.foldl_append]
  rfl

/-- `decDigitsVal` inverts `natCharsAux` when the fuel suffices. -/
theorem decDigitsVal_natCharsAux : ∀ (fuel n : Nat), n < fuel →
    decDigitsVal (natCharsAux fuel n) = n
  | 0, n, h => absurd h (Nat.not_lt_zero n)
  | fuel+1, n, h => by
    by_cases h10 : n < 10
    · show decDigitsVal (if n < 10 then [Nat.digitChar n]
          else natCharsAux fuel (n / 10) ++ [Nat.digitChar (n % 10)]) = n
      rw [if_pos h10]
      show 0 * 10 + ((Nat.digitChar n).toNat - 48) = n
      rw [digitChar_lt_ten n h10]
      omega
    · show decDigitsVal (if n < 10 then [Nat.digitChar n]
          else natCharsAux fuel (n / 10) ++ [Nat.digitChar (n % 10)]) = n
      rw [if_neg h10, decDigitsVal_append]
      have hd : n / 10 < fuel := by
        have h1 : n / 10 < n := Nat.div_lt_self (by omega) (by omega)
        omega
      rw [decDigitsVal_natCharsAux fuel (n / 10) hd,
        digitChar_lt_ten (n % 10) (Nat.mod_lt n (by omega))]
      omega

/-- Decimal rendering of naturals is injective. -/
theorem natChars_inj (m n : Nat) (h : natChars m = natChars n) : m = n := by
  have hm : decDigitsVal (natChars m) = m := decDigitsVal_natCharsAux (m+1) m (Nat.lt_succ_self m)
  have hn : decDigitsVal (natChars n) = n := decDigitsVal_natCharsAux (n+1) n (Nat.lt_succ_self n)
  rw [← hm, ← hn, h]

/-- The suffixed candidate names are injective in the suffix. -/
theorem suffixName_inj (c : List Char) (j k : Nat) (h : suffixName c j = suffixName c k) :
    j = k := by
  unfold suffixName at h
  have h2 := List.append_cancel_left h
  injection h2 with _ h3
  exact natChars_inj j k h3

/-- Pigeonhole: among the first `seen.length + 1` candidate suffixes, some
candidate name is not in `seen` (so the source's while loop terminates
within the fuel supplied by `findSuffix`). -/
theorem exists_free_suffix (seen : List (List Char)) (c : List Char) :
    ∃ j, 1 ≤ j ∧ j ≤ seen.length + 1 ∧ suffixName c j ∉ seen := by
  by_contra hall
  push_neg at hall
  have hsub : ((List.range (seen.length + 1)).map (fun i => suffixName c (i + 1))) ⊆ seen := by
    intro x hx
    rcases List.mem_map.mp hx with ⟨i, hi, rfl⟩
    have hi2 := List.mem_range.mp hi
    exact hall (i + 1) (by omega) (by omega)
  have hnodup : ((List.range (seen.length + 1)).map (fun i => suffixName c (i + 1))).Nodup := by
    refine List.Nodup.map ?_ (List.nodup_range _)
    intro a b hab
    have h2 := suffixName_inj c (a + 1) (b + 1) hab
    omega
  have hle := (List.subperm_of_subset hnodup hsub).length_le
  simp only [List.length_map, List.length_range] at hle
  omega

/-- The fuelled while-loop model returns the first free suffix at or after
its start, provided some free suffix lies within its fuel range. -/
theorem findSuffixGo_spec (seen : List (List Char)) (c : List Char) : ∀ (fuel k : Nat),
    (∃ j, k ≤ j ∧ j ≤ k + fuel ∧ suffixName c j ∉ seen) →
    (suffixName c (findSuffixGo seen c fuel k) ∉ seen ∧
      k ≤ findSuffixGo seen c fuel k ∧
      ∀ j, k ≤ j → j < findSuffixGo seen c fuel k → suffixName c j ∈ seen)
  | 0, k, hex => by
    rcases hex with ⟨j, hj1, hj2, hj3⟩
    have hjk : j = k := by omega
    subst hjk
    exact ⟨hj3, Nat.le_refl _, fun j2 h1 h2 => absurd (Nat.lt_of_le_of_lt h1 h2)
      (Nat.lt_irrefl _)⟩
  | fuel+1, k, hex => by
    by_cases hmem : suffixName c k ∈ seen
    · have hrec : ∃ j, k + 1 ≤ j ∧ j ≤ (k + 1) + fuel ∧ suffixName c j ∉ seen := by
        rcases hex with ⟨j, hj1, hj2, hj3⟩
        refine ⟨j, ?_, by omega, hj3⟩
        rcases Nat.eq_or_lt_of_le hj1 with rfl | hlt
        · exact absurd hmem hj3
        · omega
      have ih := findSuffixGo_spec seen c fuel (k + 1) hrec
      have he : findSuffixGo seen c (fuel+1) k = findSuffixGo seen c fuel (k + 1) := by
        show (if suffixName c k ∈ seen then findSuffixGo seen c fuel (k + 1) else k)
            = findSuffixGo seen c fuel (k + 1)
        exact if_pos hmem
      rw [he]
      refine ⟨ih.1, by omega, ?_⟩
      intro j h1 h2
      rcases Nat.eq_or_lt_of_le h1 with rfl | hlt
      · exact hmem
      · exact ih.2.2 j (by omega) h2
    · have he : findSuffixGo seen c (fuel+1) k = k := by
        show (if suffixName c k ∈ seen then findSuffixGo seen c fuel (k + 1) else k) = k
        exact if_neg hmem
      rw [he]
      exact ⟨hmem, Nat.le_refl k, fun j2 h1 h2 => absurd (Nat.lt_of_le_of_lt h1 h2)
        (Nat.lt_irrefl _)⟩

/-- `findSuffix` returns a suffix `k ≥ 1` whose candidate name is free,
and every smaller suffix `≥ 1` is taken. -/
theorem findSuffix_spec (seen : List (List Char)) (c : List Char) :
    suffixName c (findSuffix seen c) ∉ seen ∧
    1 ≤ findSuffix seen c ∧
    ∀ j, 1 ≤ j → j < findSuffix seen c → suffixName c j ∈ seen := by
  have hex : ∃ j, 1 ≤ j ∧ j ≤ 1 + (seen.length + 1) ∧ suffixName c j ∉ seen := by
    rcases exists_free_suffix seen c with ⟨j, h1, h2, h3⟩
    exact ⟨j, h1, by omega, h3⟩
  exact findSuffixGo_spec seen c (seen.length + 1) 1 hex

/-- The name chosen for a column is never one already produced. -/
theorem chooseName_fresh (seen : List (List Char)) (col : List Char) :
    chooseName seen col ∉ seen := by
  simp only [chooseName]
  by_cases h : clean_column col ∈ seen
  · rw [if_pos h]
    exact (findSuffix_spec seen (clean_column col)).1
  · rw [if_neg h]
    exact h

/-- The chosen name realizes the spec's minimal-suffix choice against the
already-produced names. -/
theorem chooseName_minimal (seen : List (List Char)) (col : List Char) :
    minimalSuffixChoice seen (clean_column col) (chooseName seen col) := by
  by_cases h : clean_column col ∈ seen
  · right
    refine ⟨h, findSuffix seen (clean_column col),
      (findSuffix_spec seen (clean_column col)).2.1, ?_,
      (findSuffix_spec seen (clean_column col)).1,
      (findSuffix_spec seen (clean_column col)).2.2⟩
    simp only [chooseName]
    rw [if_pos h]
  · left
    refine ⟨h, ?_⟩
    simp only [chooseName]
    rw [if_neg h]

/-- Deduplicated output length equals input length. -/
theorem dedupGo_length : ∀ (cols seen : List (List Char)),
    (dedupGo seen cols).length = cols.length
  | [], _ => rfl
  | col :: rest, seen => by
    show (chooseName seen col :: dedupGo (chooseName seen col :: seen) rest).length
        = rest.length + 1
    rw [List.length_cons, dedupGo_length rest]

/-- Every output of the loop avoids the initial `seen` set. -/
theorem dedupGo_avoids : ∀ (cols seen : List (List Char)) (x : List Char),
    x ∈ dedupGo seen cols → x ∉ seen
  | [], _, x, hx => absurd hx (List.not_mem_nil x)
  | col :: rest, seen, x, hx => by
    have hx2 : x ∈ chooseName seen col :: dedupGo (chooseName seen col :: seen) rest := hx
    rcases List.mem_cons.mp hx2 with rfl | h3
    · exact chooseName_fresh seen col
    · intro hmem
      exact dedupGo_avoids rest (chooseName seen col :: seen) x h3
        (List.mem_cons_of_mem _ hmem)

/-- The deduplicated outputs are pairwise distinct. -/
theorem dedupGo_nodup : ∀ (cols seen : List (List Char)), (dedupGo seen cols).Nodup
  | [], _ => List.nodup_nil
  | col :: rest, seen => by
    show (chooseName seen col :: dedupGo (chooseName seen col :: seen) rest).Nodup
    refine List.nodup_cons.mpr ⟨?_, dedupGo_nodup rest _⟩
    intro hmem
    exact dedupGo_avoids rest _ _ hmem (List.mem_cons_self _ _)

/-- The minimal-suffix choice only depends on the membership of the
previous-name list. -/
theorem minimalSuffixChoice_congr (p q : List (List Char)) (cc out : List Char)
    (h : ∀ x, x ∈ p ↔ x ∈ q) (hm : minimalSuffixChoice p cc out) :
    minimalSuffixChoice q cc out := by
  rcases hm with ⟨h1, h2⟩ | ⟨h1, k, hk1, hk2, hk3, hk4⟩
  · exact Or.inl ⟨fun hq => h1 ((h cc).mpr hq), h2⟩
  · exact Or.inr ⟨(h cc).mp h1, k, hk1, hk2, fun hq => hk3 ((h _).mpr hq),
      fun j hj1 hj2 => (h _).mp (hk4 j hj1 hj2)⟩

/-- Elementwise description of the loop: each position's output is the
minimal-suffix choice against the initial names plus the earlier outputs. -/
theorem dedupGo_spec : ∀ (cols seen : List (List Char)) (i : Nat), i < cols.length →
    minimalSuffixChoice (seen ++ (dedupGo seen cols).take i)
      (clean_column (cols.getD i [])) ((dedupGo seen cols).getD i [])
  | [], _, i, hi => absurd hi (by simp)
  | col :: rest, seen, 0, _ => by
    show minimalSuffixChoice (seen ++ []) (clean_column col) (chooseName seen col)
    rw [List.append_nil]
    exact chooseName_minimal seen col
  | col :: rest, seen, i+1, hi => by
    have hi2 : i < rest.length := by simpa using hi
    have ih := dedupGo_spec rest (chooseName seen col :: seen) i hi2
    refine minimalSuffixChoice_congr _ _ _ _ ?_ ih
    intro x
    show x ∈ (chooseName seen col :: seen)
          ++ (dedupGo (chooseName seen col :: seen) rest).take i ↔
        x ∈ seen ++ chooseName seen col
          :: (dedupGo (chooseName seen col :: seen) rest).take i
    simp only [List.mem_append, List.mem_cons]
    tauto

/-- C4: the sanitizer's deduplication step returns a sequence of the same
length with pairwise-distinct names, preserving index order, where each
position holds the cleaned name if it was not already produced, and
otherwise the cleaned name with the first unused numeric suffix appended
(every smaller suffix being already taken). -/
theorem cleaned_columns_spec (cols : List (List Char)) :
    (cleaned_columns cols).length = cols.length ∧
    (cleaned_columns cols).Nodup ∧
    ∀ i, i < cols.length →
      minimalSuffixChoice ((cleaned_columns cols).take i)
        (clean_column (cols.getD i [])) ((cleaned_columns cols).getD i []) := by
  refine ⟨dedupGo_length cols [], dedupGo_nodup cols [], ?_⟩
  intro i hi
  have h := dedupGo_spec cols [] i hi
  simpa using h

/-- C4 witness: on the duplicate input ["a", "a"] the second output is the
minimal-suffix choice against the first. -/
theorem cleaned_columns_spec_witness :
    (cleaned_columns (["a", "a"].map String.toList)).length = 2 ∧
    minimalSuffixChoice ((cleaned_columns (["a", "a"].map String.toList)).take 1)
      (clean_column ((["a", "a"].map String.toList).getD 1 []))
      ((cleaned_columns (["a", "a"].map String.toList)).getD 1 []) := by
  refine ⟨?_, (cleaned_columns_spec (["a", "a"].map String.toList)).2.2 1 (by decide)⟩
  rw [(cleaned_columns_spec (["a", "a"].map String.toList)).1]
  decide

/-- C8 counterexample: on the end-to-end input the pipeline's column names
keep their original case — the script quotes identifiers, so the created
columns are "BillDate", "Qty", "GSTAmount", not the claim's lowercase
"billdate", "qty", "gstamount". -/
theorem pipeline_counterexample :
    (runPipeline apiText).map PipelineResult.columns
      ≠ some (["billdate", "qty", "gstamount"].map String.toList) := by
  decide

/-- C8 amended: on the API response
`[{"BillDate":"2024-01-05","Qty":"3","GSTAmount":"45.00"}]` the pipeline
produces exactly one row in a table with quoted, case-preserved columns
"BillDate" of type DATE holding 2024-01-05, "Qty" of type INTEGER holding
3, and "GSTAmount" of type NUMERIC(10,2) holding 45.00. -/
theorem pipeline_end_to_end :
    runPipeline apiText = some
      { columns := ["BillDate", "Qty", "GSTAmount"].map String.toList
        colTypes := ["DATE", "INTEGER", "NUMERIC(10,2)"].map String.toList
        rows := [[CVal.cdate ⟨2024, 1, 5⟩, CVal.cint 3, CVal.cnum 45]] } := by
  decide

/-- C2 amended witness: the amended properties evaluated on the concrete
input "Bill Date!" (cleaned to "Bill_Date"). -/
theorem clean_column_amended_witness :
    isWordChar 'B' = true ∧
    noDoubleUnderscore (clean_column ("Bill Date!".toList)) = true :=
  ⟨(clean_column_amended ("Bill Date!".toList)).1 'B' (by decide),
    (clean_column_amended ("Bill Date!".toList)).2.2.1⟩
